import Mathlib

/-
Verification of the documentation builder (docs/python/docbuilder.py):
a shallow embedding of the Path type, the documentation tree builder and
the HTML renderer, together with theorems settling the specified
properties. Python strings are Lean String values; splitting on dots is
embedded at the character-list level with the semantics of the Python
str.split call.
-/

namespace DocBuild

/-- Character-level embedding of the Python expression s.split . with
separator the dot character: the empty string yields a single empty
piece, and consecutive dots yield empty pieces. -/
def splitDotChars : List Char → List (List Char)
  | [] => [[]]
  | c :: cs =>
    match splitDotChars cs with
    | [] => [[]]
    | s :: rest => if c = '.' then [] :: s :: rest else (c :: s) :: rest

/-- splitting a string on dots, as in the Python source. -/
def splitDot (s : String) : List String :=
  (splitDotChars s.data).map String.mk

/-- The result of splitDotChars is never the empty list. -/
theorem splitDotChars_ne_nil (l : List Char) : splitDotChars l ≠ [] := by
  cases l with
  | nil => simp [splitDotChars]
  | cons c cs =>
    simp only [splitDotChars]
    cases h : splitDotChars cs with
    | nil => simp
    | cons s rest =>
      by_cases hc : c = '.' <;> simp [hc]

/-- No piece produced by splitDotChars contains the dot character. -/
theorem splitDotChars_no_dot (l : List Char) :
    ∀ p ∈ splitDotChars l, '.' ∉ p := by
  induction l with
  | nil => intro p hp; simp [splitDotChars] at hp; simp [hp]
  | cons c cs ih =>
    intro p hp
    cases h : splitDotChars cs with
    | nil => exact absurd h (splitDotChars_ne_nil cs)
    | cons s rest =>
      simp only [splitDotChars, h] at hp
      split_ifs at hp with hc
      · rcases List.mem_cons.mp hp with hp | hp
        · simp [hp]
        · rcases List.mem_cons.mp hp with hp | hp
          · exact ih p (by rw [h, hp]; exact List.mem_cons_self _ _)
          · exact ih p (by rw [h]; exact List.mem_cons_of_mem _ hp)
      · rcases List.mem_cons.mp hp with hp | hp
        · subst hp
          intro hmem
          rcases List.mem_cons.mp hmem with h1 | h1
          · exact hc h1.symm
          · exact ih s (by rw [h]; exact List.mem_cons_self _ _) h1
        · exact ih p (by rw [h]; exact List.mem_cons_of_mem _ hp)

/-- Splitting a dot-free character list gives the list itself as the
single piece. -/
theorem splitDotChars_of_no_dot (l : List Char) (h : '.' ∉ l) :
    splitDotChars l = [l] := by
  induction l with
  | nil => simp [splitDotChars]
  | cons c cs ih =>
    simp only [List.mem_cons, not_or] at h
    simp only [splitDotChars, ih h.2]
    have : ¬ c = '.' := fun hc => h.1 hc.symm
    simp [this]

/-- Splitting a concatenation around a dot splits the two halves
independently. -/
theorem splitDotChars_append (xs ys : List Char) :
    splitDotChars (xs ++ '.' :: ys) = splitDotChars xs ++ splitDotChars ys := by
  induction xs with
  | nil =>
    simp only [List.nil_append, splitDotChars]
    cases h : splitDotChars ys with
    | nil => exact absurd h (splitDotChars_ne_nil ys)
    | cons s rest => simp
  | cons c cs ih =>
    have key : splitDotChars (c :: (cs ++ '.' :: ys)) =
        match splitDotChars (cs ++ '.' :: ys) with
        | [] => [[]]
        | s :: rest => if c = '.' then [] :: s :: rest else (c :: s) :: rest := rfl
    cases h : splitDotChars cs with
    | nil => exact absurd h (splitDotChars_ne_nil cs)
    | cons s rest =>
      rw [List.cons_append, key, ih, h]
      by_cases hc : c = '.' <;> simp [splitDotChars, h, hc]

/-- Embedding of the Path class: a dotted hierarchy key wrapping the
underlying string attribute. -/
structure Path where
  _path : String
deriving DecidableEq

/-- Path.root from the source: the first piece of the dot split. -/
def Path.root (p : Path) : String :=
  (splitDot p._path).headI

/-- Path.append from the source: appends a node, inserting a dot
separator unless the path is the empty string. -/
def Path.append (p : Path) (node : String) : Path :=
  if p._path = "" then ⟨p._path ++ node⟩ else ⟨p._path ++ "." ++ node⟩

/-- The loop body of Path.common_parent from the source: walk the two
segment lists in lockstep, appending while the segments agree and
returning the accumulator at the first mismatch. -/
def commonLoop : List String → List String → Path → Path
  | n1 :: l1, n2 :: l2, parent =>
    if n1 = n2 then commonLoop l1 l2 (parent.append n1) else parent
  | _, _, parent => parent

/-- Path.common_parent from the source: zip the dot splits of the two
paths and accumulate the agreeing prefix starting from an empty Path. -/
def Path.common_parent (p q : Path) : Path :=
  commonLoop (splitDot p._path) (splitDot q._path) ⟨""⟩

/-- Spec-side definition for the refinement part of the common-parent
claim, following the spec wording: the longest prefix whose segments are
pairwise equal at each depth, stopping at the first mismatch. -/
def lcp : List String → List String → List String
  | a :: l1, b :: l2 => if a = b then a :: lcp l1 l2 else []
  | _, _ => []

/-- Joining segments with dots; the string a fold of Path.append over
the segments produces. -/
def joinDot : List String → String
  | [] => ""
  | [s] => s
  | s :: rest => s ++ "." ++ joinDot rest

/-- A path string is well formed when its dot split has no empty
segment (the Block path invariant from the spec data model). -/
def wfP (s : String) : Prop :=
  ∀ seg ∈ splitDot s, seg ≠ ""

instance (s : String) : Decidable (wfP s) := by
  unfold wfP; infer_instance

theorem joinDot_cons (s x : String) (L : List String) :
    joinDot (s :: x :: L) = s ++ "." ++ joinDot (x :: L) := rfl

theorem joinDot_merge (s x : String) (L : List String) :
    joinDot ((s ++ "." ++ x) :: L) = s ++ "." ++ joinDot (x :: L) := by
  induction L with
  | nil => rfl
  | cons y L ih =>
    simp only [joinDot_cons, String.append_assoc]

theorem string_ne_empty_iff (s : String) : s ≠ "" ↔ s.data ≠ [] := by
  cases s; simp [String.ext_iff]

theorem append_data (s t : String) : (s ++ t).data = s.data ++ t.data := by
  simp [String.data_append]

theorem dotcat_ne_empty (s x : String) : s ++ "." ++ x ≠ "" := by
  rw [string_ne_empty_iff, append_data, append_data]
  simp

/-- Folding Path.append from a nonempty accumulator produces the
dot-joined segments. -/
theorem foldl_append_of_ne (L : List String) :
    ∀ s : String, s ≠ "" → List.foldl Path.append ⟨s⟩ L = ⟨joinDot (s :: L)⟩ := by
  induction L with
  | nil => intro s _; rfl
  | cons x L ih =>
    intro s hs
    rw [List.foldl_cons, show Path.append ⟨s⟩ x = ⟨s ++ "." ++ x⟩ by
      simp [Path.append, hs]]
    rw [ih (s ++ "." ++ x) (dotcat_ne_empty s x), joinDot_merge, joinDot_cons]

/-- Folding Path.append from the empty accumulator over segments whose
head is nonempty produces the dot-joined segments. -/
theorem foldl_append_empty (L : List String) (h : ∀ x ∈ L, x ≠ "") :
    List.foldl Path.append ⟨""⟩ L = ⟨joinDot L⟩ := by
  cases L with
  | nil => rfl
  | cons x L =>
    rw [List.foldl_cons, show Path.append ⟨""⟩ x = ⟨x⟩ by simp [Path.append]]
    exact foldl_append_of_ne L x (h x (List.mem_cons_self _ _))

/-- The common-parent loop folds Path.append over the longest common
prefix of the two segment lists. -/
theorem commonLoop_eq_foldl :
    ∀ (l1 l2 : List String) (p : Path),
      commonLoop l1 l2 p = List.foldl Path.append p (lcp l1 l2) := by
  intro l1
  induction l1 with
  | nil => intro l2 p; cases l2 <;> rfl
  | cons a l1 ih =>
    intro l2 p
    cases l2 with
    | nil => rfl
    | cons b l2 =>
      by_cases hab : a = b
      · simp only [commonLoop, lcp, if_pos hab, List.foldl_cons]
        exact ih l2 (p.append a)
      · simp [commonLoop, lcp, hab]

theorem splitDot_ne_nil (s : String) : splitDot s ≠ [] := by
  rw [splitDot]
  intro h
  exact splitDotChars_ne_nil s.data (List.map_eq_nil_iff.mp h)

theorem splitDot_no_dot (s : String) : ∀ x ∈ splitDot s, '.' ∉ x.data := by
  intro x hx
  rw [splitDot] at hx
  rcases List.mem_map.mp hx with ⟨p, hp, rfl⟩
  exact splitDotChars_no_dot s.data p hp

theorem splitDot_empty : splitDot "" = [""] := rfl

/-- Splitting a concatenation around a dot separator splits the two
halves independently. -/
theorem splitDot_append (a b : String) :
    splitDot (a ++ "." ++ b) = splitDot a ++ splitDot b := by
  rw [splitDot, splitDot, splitDot]
  have hdata : (a ++ "." ++ b).data = a.data ++ '.' :: b.data := by
    rw [append_data, append_data, List.append_assoc]; rfl
  rw [hdata, splitDotChars_append, List.map_append]

/-- splitDot of a dot-joined nonempty list of dot-free segments gives
back the list. -/
theorem splitDot_joinDot (L : List String) (hne : L ≠ [])
    (hfree : ∀ x ∈ L, '.' ∉ x.data) : splitDot (joinDot L) = L := by
  induction L with
  | nil => exact absurd rfl hne
  | cons s L ih =>
    cases L with
    | nil =>
      show splitDot s = [s]
      rw [splitDot, splitDotChars_of_no_dot _ (hfree s (List.mem_cons_self _ _))]
      rfl
    | cons x L =>
      rw [joinDot_cons, splitDot_append, ih (by simp)
        (fun y hy => hfree y (List.mem_cons_of_mem _ hy))]
      rw [splitDot, splitDotChars_of_no_dot _ (hfree s (List.mem_cons_self _ _))]
      rfl

theorem lcp_prefix_left : ∀ l1 l2 : List String, lcp l1 l2 <+: l1 := by
  intro l1
  induction l1 with
  | nil => intro l2; cases l2 <;> simp [lcp]
  | cons a l1 ih =>
    intro l2
    cases l2 with
    | nil => simp [lcp]
    | cons b l2 =>
      by_cases hab : a = b
      · simp only [lcp, if_pos hab]
        rcases ih l2 with ⟨t, ht⟩
        exact ⟨t, by simp [ht]⟩
      · simp [lcp, hab]

theorem lcp_prefix_right : ∀ l1 l2 : List String, lcp l1 l2 <+: l2 := by
  intro l1
  induction l1 with
  | nil => intro l2; cases l2 <;> simp [lcp]
  | cons a l1 ih =>
    intro l2
    cases l2 with
    | nil => simp [lcp]
    | cons b l2 =>
      by_cases hab : a = b
      · simp only [lcp, if_pos hab]
        rcases ih l2 with ⟨t, ht⟩
        exact ⟨t, by simp [ht, hab]⟩
      · simp [lcp, hab]

theorem lcp_of_prefix : ∀ l1 l2 : List String, l1 <+: l2 → lcp l1 l2 = l1 := by
  intro l1
  induction l1 with
  | nil => intro l2 _; cases l2 <;> simp [lcp]
  | cons a l1 ih =>
    intro l2 hpre
    cases l2 with
    | nil => simp at hpre
    | cons b l2 =>
      rcases hpre with ⟨t, ht⟩
      simp only [List.cons_append, List.cons.injEq] at ht
      have h2 : l1 <+: l2 := ⟨t, ht.2⟩
      simp [lcp, ht.1, ih l2 h2]

/-- Path.common_parent, characterized through the spec-side longest
common prefix: it dot-joins the lcp of the two dot splits. -/
theorem common_parent_eq (p q : Path) (hp : wfP p._path) :
    p.common_parent q
      = ⟨joinDot (lcp (splitDot p._path) (splitDot q._path))⟩ := by
  rw [Path.common_parent, commonLoop_eq_foldl]
  refine foldl_append_empty _ (fun x hx => hp x ?_)
  exact (lcp_prefix_left _ _).subset hx

/-- C5: for valid dot-separated paths p and q, common_parent is
idempotent in the stated sense, its result is a prefix of both inputs at
segment boundaries (it dot-joins the first k segments of either input),
and it equals the dot-join of the longest segmentwise-equal prefix of
the two splits, stopping at the first mismatch. -/
theorem C5_common_parent (p q : Path) (hp : wfP p._path) (hq : wfP q._path) :
    (p.common_parent q).common_parent p = p.common_parent q
    ∧ (∃ k, (p.common_parent q)._path = joinDot ((splitDot p._path).take k))
    ∧ (∃ m, (p.common_parent q)._path = joinDot ((splitDot q._path).take m))
    ∧ p.common_parent q
        = ⟨joinDot (lcp (splitDot p._path) (splitDot q._path))⟩ := by
  have hcp := common_parent_eq p q hp
  refine ⟨?_, ?_, ?_, hcp⟩
  · by_cases hLnil : lcp (splitDot p._path) (splitDot q._path) = []
    · rw [hcp, hLnil]
      show Path.common_parent ⟨""⟩ p = ⟨joinDot []⟩
      rcases List.exists_cons_of_ne_nil (splitDot_ne_nil p._path) with ⟨h, t, hsegs⟩
      have hne : h ≠ "" := hp h (by rw [hsegs]; exact List.mem_cons_self _ _)
      rw [Path.common_parent]
      show commonLoop [""] (splitDot p._path) ⟨""⟩ = ⟨joinDot []⟩
      rw [hsegs]
      have hno : ¬ ("" = h) := fun hcontra => hne (Eq.symm hcontra)
      simp [commonLoop, hno, joinDot]
    · have hfree : ∀ x ∈ lcp (splitDot p._path) (splitDot q._path), '.' ∉ x.data :=
        fun x hx => splitDot_no_dot p._path x ((lcp_prefix_left _ _).subset hx)
      have hsegsc : splitDot (joinDot (lcp (splitDot p._path) (splitDot q._path)))
          = lcp (splitDot p._path) (splitDot q._path) :=
        splitDot_joinDot _ hLnil hfree
      have hwfc : wfP (Path.mk (joinDot (lcp (splitDot p._path) (splitDot q._path))))._path := by
        intro x hx
        rw [hsegsc] at hx
        exact hp x ((lcp_prefix_left _ _).subset hx)
      rw [hcp, common_parent_eq _ p hwfc]
      show Path.mk (joinDot (lcp (splitDot _) (splitDot p._path))) = _
      rw [hsegsc, lcp_of_prefix _ _ (lcp_prefix_left _ _)]
  · refine ⟨(lcp (splitDot p._path) (splitDot q._path)).length, ?_⟩
    rw [hcp]
    rw [← List.prefix_iff_eq_take.mp (lcp_prefix_left (splitDot p._path) (splitDot q._path))]
  · refine ⟨(lcp (splitDot p._path) (splitDot q._path)).length, ?_⟩
    rw [hcp]
    rw [← List.prefix_iff_eq_take.mp (lcp_prefix_right (splitDot p._path) (splitDot q._path))]

/-- Witness for C5 at concrete paths a.b.c and a.b.d. -/
theorem C5_common_parent_witness :
    (wfP (Path.mk "a.b.c")._path ∧ wfP (Path.mk "a.b.d")._path)
    ∧ ((Path.mk "a.b.c").common_parent ⟨"a.b.d"⟩).common_parent ⟨"a.b.c"⟩
        = (Path.mk "a.b.c").common_parent ⟨"a.b.d"⟩
    ∧ (∃ k, ((Path.mk "a.b.c").common_parent ⟨"a.b.d"⟩)._path
        = joinDot ((splitDot (Path.mk "a.b.c")._path).take k))
    ∧ (∃ m, ((Path.mk "a.b.c").common_parent ⟨"a.b.d"⟩)._path
        = joinDot ((splitDot (Path.mk "a.b.d")._path).take m))
    ∧ (Path.mk "a.b.c").common_parent ⟨"a.b.d"⟩
        = ⟨joinDot (lcp (splitDot (Path.mk "a.b.c")._path)
            (splitDot (Path.mk "a.b.d")._path))⟩ :=
  ⟨⟨by decide, by decide⟩, C5_common_parent ⟨"a.b.c"⟩ ⟨"a.b.d"⟩ (by decide) (by decide)⟩

/-- C9 counterexample: appending the empty node string to the path a
yields the string a. whose dot split contains an empty segment, so the
claim quantified over every node string fails on the code. -/
theorem C9_counterexample :
    ¬ (∀ seg ∈ splitDot ((Path.mk "a").append "")._path, seg ≠ "") := by decide

/-- C9 amended: appending preserves the no-empty-segment invariant; for
a path that is empty or has no empty segment, and a node string whose
dot split has no empty segment, the result has no empty segment. -/
theorem C9_append_wf (p : Path) (n : String)
    (hp : p._path = "" ∨ wfP p._path) (hn : wfP n) :
    wfP (p.append n)._path := by
  rcases hp with hp | hp
  · rw [Path.append, if_pos hp, hp]
    intro seg hseg
    refine hn seg ?_
    have : ("" : String) ++ n = n := by simp
    simpa [this] using hseg
  · have hpne : p._path ≠ "" := by
      intro h0
      exact hp "" (by rw [h0]; exact List.mem_singleton.mpr rfl) rfl
    rw [Path.append, if_neg hpne]
    intro seg hseg
    rw [show (Path.mk (p._path ++ "." ++ n))._path = p._path ++ "." ++ n from rfl,
      splitDot_append] at hseg
    rcases List.mem_append.mp hseg with h | h
    · exact hp seg h
    · exact hn seg h

/-- Witness for C9 amended at path a.b and node c. -/
theorem C9_append_wf_witness :
    ((Path.mk "a.b")._path = "" ∨ wfP (Path.mk "a.b")._path) ∧ wfP "c"
    ∧ wfP ((Path.mk "a.b").append "c")._path :=
  ⟨Or.inr (by decide), by decide,
    C9_append_wf ⟨"a.b"⟩ "c" (Or.inr (by decide)) (by decide)⟩

/-- Block types recognized by the renderer (spec data model). The
source type strings module, namespace, class, method, var, property
become constructors; namespace and class are Lean keywords, hence the
constructor names nmspace and cls. -/
inductive BType
  | module | nmspace | cls | method | var | property
deriving DecidableEq

/-- A type expression attached to a tag: alternative type names plus
option flags (optional, nullable, non nullable). -/
structure TagType where
  types : List String
  options : List String
deriving DecidableEq

/-- A param tag: name, type expression (source key: type) and
description. -/
structure Param where
  name : String
  ptype : TagType
  desc : String
deriving DecidableEq

/-- A tag carrying an identifier name (requires and override entries). -/
structure NameTag where
  name : String
deriving DecidableEq

/-- A returns tag: type expression (source key: type) and description. -/
structure RetTag where
  rtype : TagType
  desc : String
deriving DecidableEq

/-- Embedding of a parsed Block as consumed by the doc builder: path,
leaf id, type, declaration line, visibility flags and tag data. The
source reads these as b.path(), b.id(), b.type(), b.line() and b[tag].
The private flag is named priv and the constructor flag ctor because
private and constructor clash with Lean keywords; propertyTag and
varTag embed the source keys property and var. -/
structure Block where
  path : String
  id : String
  btype : BType
  line : Nat
  priv : Bool
  ignore : Bool
  deprecated : Bool
  ctor : Bool
  desc : String
  param : List Param
  returns : List RetTag
  requires : List (List NameTag)
  override : List (List NameTag)
  copyright : Option String
  propertyTag : List Param
  varTag : List (List Param)
deriving DecidableEq

/-- A documentation tree node: the optional block of this path segment,
the children as a segment-keyed association list (the Python dict, in
insertion order), and the depth level. -/
inductive TNode where
  | mk (node : Option Block) (children : List (String × TNode)) (level : Nat)

def TNode.node : TNode → Option Block
  | ⟨n, _, _⟩ => n

def TNode.children : TNode → List (String × TNode)
  | ⟨_, c, _⟩ => c

def TNode.level : TNode → Nat
  | ⟨_, _, l⟩ => l

/-- Association-list lookup modelling Python dict indexing. -/
def lookupC : List (String × TNode) → String → Option TNode
  | [], _ => none
  | (k, v) :: rest, s => if k = s then some v else lookupC rest s

/-- Association-list update modelling Python dict assignment: replaces
in place when the key exists, appends otherwise. -/
def updateChild : List (String × TNode) → String → TNode → List (String × TNode)
  | [], s, c => [(s, c)]
  | (k, v) :: rest, s, c =>
    if k = s then (s, c) :: rest else (k, v) :: updateChild rest s c

/-- The segment walk of Path.add_leaf: descend along the segments,
creating missing intermediate nodes with node None and level the
enumeration index, then assign the leaf block at the final node. -/
def addLeafGo (b : Block) : TNode → List String → Nat → TNode
  | ⟨_, ch, lv⟩, [], _ => ⟨some b, ch, lv⟩
  | ⟨nd, ch, lv⟩, s :: rest, l =>
    let child := match lookupC ch s with
      | some c => c
      | none => ⟨none, [], l⟩
    ⟨nd, updateChild ch s (addLeafGo b child rest (l + 1)), lv⟩

/-- Path.add_leaf from the source, acting on the tree root that holds
the top-level children dictionary. -/
def Path.add_leaf (p : Path) (tree : TNode) (leaf : Block) : TNode :=
  addLeafGo leaf tree (splitDot p._path) 0

/-- DocBuilder._tree from the source (without a converter): fold
add_leaf over the accumulated blocks starting from a root with empty
children, returning the children dictionary of the root. -/
def buildTree (blocks : List Block) : List (String × TNode) :=
  (blocks.foldl (fun t b => (Path.mk b.path).add_leaf t b) ⟨none, [], 0⟩).children

/-- The tree builder instrumented with a diagnostic log: every warning
the source emits while building would be appended here. The source
emits none, so the log component is constantly nil; this makes the
absence of a duplicate-path signal observable. -/
def buildTreeLogged (blocks : List Block) : List (String × TNode) × List String :=
  (buildTree blocks, [])

/-- DocBuilder._root from the source: fold common_parent over all block
paths; none models the IndexError the source raises on an empty block
list when reading the first block. -/
def rootStr : List Block → Option String
  | [] => none
  | b :: rest =>
    some (rest.foldl (fun (r : Path) (bl : Block) => r.common_parent ⟨bl.path⟩)
      ⟨b.path⟩)._path

/-- The sort key used by DocBuilder._children: the line of the block,
or the constant 1 for synthetic nodes whose node is None. -/
def childKey (n : TNode) : Nat :=
  match n.node with
  | some b => b.line
  | none => 1

/-- The descending comparison modelling the stable Python sorted call
with reverse set: a before b when the key of b is at most the key of
a; equal keys keep their dictionary order. -/
def descRel (a b : TNode) : Prop := childKey b ≤ childKey a

instance : DecidableRel descRel :=
  fun a b => inferInstanceAs (Decidable (childKey b ≤ childKey a))

instance : IsTotal TNode descRel :=
  ⟨fun a b => (Nat.le_total (childKey b) (childKey a)).imp id id⟩

instance : IsTrans TNode descRel :=
  ⟨fun _ _ _ hab hbc => le_trans hbc hab⟩

/-- The ascending comparison, used by the spec-side recursive pre-order
traversal. -/
def ascRel (a b : TNode) : Prop := childKey a ≤ childKey b

instance : DecidableRel ascRel :=
  fun a b => inferInstanceAs (Decidable (childKey a ≤ childKey b))

instance : IsTotal TNode ascRel :=
  ⟨fun a b => (Nat.le_total (childKey a) (childKey b)).imp id id⟩

instance : IsTrans TNode ascRel :=
  ⟨fun _ _ _ hab hbc => le_trans hab hbc⟩

/-- Strict key comparison, used to state uniqueness of sorted
arrangements when all keys are distinct. -/
def keyLt (a b : TNode) : Prop := childKey a < childKey b

instance : IsAntisymm TNode keyLt :=
  ⟨fun _ _ hab hba => absurd (lt_trans hab hba) (lt_irrefl _)⟩

/-- The children values of a node in dictionary order (the Python list
comprehension over the items of the children dict). -/
def childNodes (n : TNode) : List TNode := n.children.map Prod.snd

/-- DocBuilder._children from the source: the children values sorted
by source line descending (synthetic nodes keyed 1), stable. -/
def childrenDesc (n : TNode) : List TNode :=
  List.insertionSort descRel (childNodes n)

instance : Inhabited NameTag := ⟨⟨""⟩⟩

instance : Inhabited TagType := ⟨⟨[], []⟩⟩

instance : Inhabited Param := ⟨⟨"", default, ""⟩⟩

instance : Inhabited RetTag := ⟨⟨default, ""⟩⟩

mutual

/-- A computable size measure on documentation tree nodes, used for the
termination of the traversal functions. -/
def nodeSize : TNode → Nat
  | ⟨_, ch, _⟩ => 1 + forestSize ch

/-- The size of a children association list. -/
def forestSize : List (String × TNode) → Nat
  | [] => 0
  | (_, c) :: rest => 1 + nodeSize c + forestSize rest

end

theorem nodeSize_pos (n : TNode) : 0 < nodeSize n := by
  rcases n with ⟨nd, ch, lv⟩
  simp only [nodeSize]
  omega

theorem nodeSize_childNodes {c n : TNode} (h : c ∈ childNodes n) :
    nodeSize c < nodeSize n := by
  rcases n with ⟨nd, ch, lv⟩
  simp only [childNodes, TNode.children] at h
  simp only [nodeSize]
  induction ch with
  | nil => simp at h
  | cons kv rest ih =>
    rcases kv with ⟨k, v⟩
    simp only [forestSize]
    simp only [List.map_cons, List.mem_cons] at h
    rcases h with h | h
    · subst h; omega
    · have := ih h
      simp only [nodeSize] at this ⊢
      omega

/-- The weight of a renderer stack: the total size of its nodes. -/
def stackW (s : List TNode) : Nat := (s.map nodeSize).sum

theorem stackW_perm {l1 l2 : List TNode} (h : l1.Perm l2) :
    stackW l1 = stackW l2 :=
  (h.map _).sum_eq

theorem stackW_children_lt (n : TNode) : stackW (childNodes n) < nodeSize n := by
  rcases n with ⟨nd, ch, lv⟩
  have haux : ∀ ch' : List (String × TNode),
      stackW (ch'.map Prod.snd) ≤ forestSize ch' := by
    intro ch'
    induction ch' with
    | nil => simp [stackW, forestSize]
    | cons kv rest ih =>
      rcases kv with ⟨k, v⟩
      simp only [List.map_cons, stackW, List.sum_cons, forestSize] at ih ⊢
      omega
  have := haux ch
  simp only [childNodes, TNode.children]
  simp only [nodeSize]
  omega

/-- The single-quote character as a string: the attribute quote of the
HTML format strings in the source. -/
def sq : String := String.singleton (Char.ofNat 39)

def obrace : Char := Char.ofNat 123

def cbrace : Char := Char.ofNat 125

/-- Scan helper for _codify: collect characters up to the first closing
brace, failing at a newline or at the end of input (the regex dot of
the source does not match a newline, and an unclosed span stays
untouched). -/
def codifyScan : List Char → Option (List Char × List Char)
  | [] => none
  | c :: cs =>
    if c = cbrace then some ([], cs)
    else if c = '\n' then none
    else
      match codifyScan cs with
      | some (body, rest) => some (c :: body, rest)
      | none => none

theorem codifyScan_shrink :
    ∀ cs body rest, codifyScan cs = some (body, rest) → rest.length < cs.length := by
  intro cs
  induction cs with
  | nil => intro body rest h; simp [codifyScan] at h
  | cons c cs ih =>
    intro body rest h
    simp only [codifyScan] at h
    by_cases hc : c = cbrace
    · rw [if_pos hc] at h
      injection h with h
      injection h with h1 h2
      subst h2
      simp
    · rw [if_neg hc] at h
      by_cases hn : c = '\n'
      · rw [if_pos hn] at h; exact absurd h (by simp)
      · rw [if_neg hn] at h
        cases hscan : codifyScan cs with
        | none => rw [hscan] at h; exact absurd h (by simp)
        | some pr =>
          rcases pr with ⟨body', rest'⟩
          rw [hscan] at h
          injection h with h
          injection h with h1 h2
          subst h2
          exact Nat.lt_succ_of_lt (ih body' rest' hscan)

/-- The source helper _codify with explicit fuel (any fuel at least the
input length is enough): rewrite each non-greedy brace span into an
inline code element. -/
def codifyF : Nat → List Char → List Char
  | 0, _ => []
  | _ + 1, [] => []
  | fuel + 1, c :: cs =>
    if c = obrace then
      match codifyScan cs with
      | some (body, rest) =>
        ("<code>".data ++ body ++ "</code>".data) ++ codifyF fuel rest
      | none => c :: codifyF fuel cs
    else c :: codifyF fuel cs

/-- The source helper _codify: inline code markup on brace spans. -/
def codify (s : String) : String :=
  ⟨codifyF s.data.length s.data⟩

/-- The source helper _tagify: wrap text in a tag with the given
attribute pairs. -/
def tagify (text tag : String) (attr : List (String × String)) : String :=
  (attr.foldl (fun l kv => l ++ " " ++ kv.1 ++ "=" ++ sq ++ kv.2 ++ sq)
    ("<" ++ tag)) ++ ">" ++ text ++ "</" ++ tag ++ ">"

/-- Concatenation of a list of strings (the Python join on the empty
separator). -/
def joinStr : List String → String
  | [] => ""
  | s :: rest => s ++ joinStr rest

/-- Membership of the optional flag in the type options of a param. -/
def isOptional (p : Param) : Bool := p.ptype.options.contains "optional"

/-- The argument string of the _method call signature: an opening
bracket before each optional parameter, names joined by commas, and one
closing bracket per optional parameter, all appended at the end. -/
def methodCode (params : List Param) : String :=
  match params with
  | [] => ""
  | p0 :: rest =>
    let c0 := (if isOptional p0 then "[" else "") ++ p0.name
    let cmid := rest.foldl
      (fun acc p => acc ++ (if isOptional p then "[" else "") ++ ", " ++ p.name) c0
    cmid ++ joinStr ((params.filter (fun p => isOptional p)).map (fun _ => "]"))

/-- The call-signature line rendered by _method. -/
def methodSig (b : Block) : String :=
  b.path ++ "(" ++ methodCode b.param ++ ")"

def joinSpace (l : List String) : String := String.intercalate " " l

/-- The parameter table of _method. The headI defaults embed the
IndexError the source would raise on malformed empty tag lists. -/
def argdesc (b : Block) : String :=
  b.param.foldl
    (fun acc p =>
      let entry := "<td><i>" ++ p.name ++ "</i></td><td>"
        ++ joinSpace (p.ptype.types.map (fun pt => tagify pt "code" [])) ++ "</td>"
      let pdesc := ["optional", "nullable", "non nullable"].foldl
        (fun d opt =>
          if p.ptype.options.contains opt then d ++ " " ++ tagify opt "code" [] else d)
        (codify p.desc)
      acc ++ tagify (entry ++ tagify pdesc "td" []) "tr" [])
    (tagify
      (tagify ("<th class=" ++ sq ++ "fifth" ++ sq ++ ">arg</th><th class="
        ++ sq ++ "fifth" ++ sq ++ ">type</th><th>description</th>") "tr" [])
      "thead" [])

/-- The return table of _method. -/
def retdesc (b : Block) : String :=
  tagify
    (tagify ("<th class=" ++ sq ++ "fifth" ++ sq ++ ">return</th><th>description</th>")
      "tr" []) "thead" []
  ++ tagify ("<td><i>"
      ++ joinSpace ((b.returns.headI).rtype.types.map (fun rt => tagify rt "code" []))
      ++ "</i></td><td>" ++ (b.returns.headI).desc ++ "</td>") "tr" []

/-- The source helper _method: heading, signature, description, override
note, parameter table and return table, wrapped in a card div. -/
def methodContent (b : Block) : String :=
  let name := "<h2 id=" ++ sq ++ "api-" ++ b.path ++ sq ++ ">" ++ b.id ++ "</h2>\n"
  let content := tagify (b.path ++ "(" ++ methodCode b.param ++ ")") "pre" [] ++ "\n"
    ++ "<br>" ++ codify b.desc ++ "\n"
    ++ (if b.override = [] then ""
        else "<br>" ++ "Overrides: " ++ codify ((b.override.headI).headI).name)
    ++ (if b.param = [] then "" else "<br>" ++ tagify (argdesc b) "table" [] ++ "\n")
    ++ (if b.returns = [] then "" else tagify (retdesc b) "table" [])
  name ++ tagify content "div" [("class", "card")] ++ "<br>"

/-- The source helper _property. -/
def propertyContent (b : Block) : String :=
  let name := "<h2 id=" ++ sq ++ "api-" ++ b.path ++ sq ++ ">" ++ b.id ++ "</h2>\n"
  let prop := b.propertyTag.headI
  let content := tagify prop.name "pre" [] ++ "<br>"
    ++ tagify prop.ptype.types.headI "code" []
    ++ " " ++ codify prop.desc ++ "\n"
  name ++ tagify content "div" [("class", "card")] ++ "<br>"

/-- The source helper _var. -/
def varContent (b : Block) : String :=
  let name := "<h2 id=" ++ sq ++ "api-" ++ b.path ++ sq ++ ">" ++ b.id ++ "</h2>\n"
  let v := (b.varTag.headI).headI
  let content := tagify b.path "pre" [] ++ "<br>"
    ++ tagify v.ptype.types.headI "code" []
    ++ " " ++ codify b.desc ++ "\n"
  name ++ tagify content "div" [("class", "card")] ++ "<br>"

/-- The renderer skip condition on a block: private, ignored or
deprecated. -/
def flaggedB (b : Block) : Bool := b.priv || b.ignore || b.deprecated

/-- The skip condition lifted to nodes: synthetic nodes are never
flagged. -/
def flaggedN (n : TNode) : Bool :=
  match n.node with
  | some b => flaggedB b
  | none => false

theorem mem_childrenDesc_rev {c n : TNode}
    (h : c ∈ (childrenDesc n).reverse) : nodeSize c < nodeSize n :=
  nodeSize_childNodes
    ((List.perm_insertionSort descRel (childNodes n)).subset
      ((List.reverse_perm _).subset h))

/-- The source helper _menu: empty for synthetic or flagged nodes, a flat
anchor for method, var and property blocks, and a collapsible group for
the remaining types; the source repeats the identical group-building
code for the class, namespace and module branches, collapsed here into
the final branch. Children recurse in reversed _children order, that
is, ascending by source line. -/
def menuF : TNode → String
  | ⟨none, _, _⟩ => ""
  | ⟨some b, ch, lv⟩ =>
    if flaggedB b then ""
    else if b.btype = BType.method ∨ b.btype = BType.var ∨ b.btype = BType.property then
      "<a href=" ++ sq ++ "#api-" ++ b.path ++ sq ++ ">" ++ b.id ++ "</a>"
    else
      let ls := "s" ++ toString lv
      tagify "" "input" [("id", ls ++ "-" ++ b.path), ("type", "checkbox")]
      ++ tagify b.id "label" [("for", ls ++ "-" ++ b.path)]
      ++ tagify
        (joinStr (((childrenDesc ⟨some b, ch, lv⟩).reverse).attach.map
          (fun c => menuF c.1)))
        "div" [("class", ls)]
termination_by n => nodeSize n
decreasing_by exact mem_childrenDesc_rev c.2

/-- The per-node main-content fragment of the html loop body, by block
type, with the source append order per branch. -/
def contentFor (b : Block) : String :=
  (if b.btype = BType.module ∨ b.btype = BType.nmspace then
    "<h2 id=" ++ sq ++ "api-" ++ b.path ++ sq ++ ">" ++ b.path ++ "</h2>"
      ++ b.desc ++ "\n" ++ "<br>"
    ++ (if b.requires = [] then ""
        else "<br>Requires: "
          ++ joinSpace (b.requires.map (fun x => "<code>" ++ x.headI.name ++ "</code>")))
    ++ (match b.copyright with
        | some c => "<br><br>" ++ c
        | none => "")
  else "")
  ++ (if b.btype = BType.method ∨ (b.btype = BType.cls ∧ b.ctor = true) then
      methodContent b else "")
  ++ (if b.btype = BType.property then propertyContent b else "")
  ++ (if b.btype = BType.var then varContent b else "")
  ++ (if b.btype = BType.cls ∧ ¬ b.ctor = true then
      "<h2 id=" ++ sq ++ "api-" ++ b.path ++ sq ++ ">" ++ b.id ++ "</h2>"
        ++ b.desc ++ "\n" ++ "<br>" else "")

theorem stackW_cons (n : TNode) (s : List TNode) :
    stackW (n :: s) = nodeSize n + stackW s := by
  simp [stackW]

theorem stackW_append (l1 l2 : List TNode) :
    stackW (l1 ++ l2) = stackW l1 + stackW l2 := by
  simp [stackW]

theorem stackW_push_lt (n : TNode) (s : List TNode) :
    stackW ((childrenDesc n).reverse ++ s) < stackW (n :: s) := by
  rw [stackW_append, stackW_cons]
  have h1 : stackW (childrenDesc n).reverse = stackW (childNodes n) :=
    stackW_perm ((List.reverse_perm _).trans (List.perm_insertionSort descRel _))
  rw [h1]
  have := stackW_children_lt n
  omega

theorem stackW_tail_lt (n : TNode) (s : List TNode) :
    stackW s < stackW (n :: s) := by
  rw [stackW_cons]
  have := nodeSize_pos n
  omega

/-- The traversal loop of DocBuilder.html: pop a node from the stack
(the Python stack pops the highest index, modelled here with the stack
top at the head and extension by the reversed children list), skip
flagged blocks together with their entire subtree, collect the menu of
module nodes and the main content by block type, and push the children
sorted descending by line. -/
def walk : List TNode → String × String
  | [] => ("", "")
  | ⟨none, ch, lv⟩ :: s => walk ((childrenDesc ⟨none, ch, lv⟩).reverse ++ s)
  | ⟨some b, ch, lv⟩ :: s =>
    if flaggedB b then walk s
    else
      let m := if b.btype = BType.module then menuF ⟨some b, ch, lv⟩ else ""
      let rest := walk ((childrenDesc ⟨some b, ch, lv⟩).reverse ++ s)
      (m ++ rest.1, contentFor b ++ rest.2)
termination_by s => stackW s
decreasing_by
  all_goals first
  | exact stackW_push_lt _ _
  | exact stackW_tail_lt _ _

/-- The traversal phase of DocBuilder.html: build the tree, compute the
root (the source raises IndexError on an empty block list), start the
stack at the value of the first key of the tree dictionary, and return
the root with the accumulated menu and main content. -/
def htmlParts (blocks : List Block) : Except String (String × String × String) :=
  let tree := buildTree blocks
  match rootStr blocks with
  | none => Except.error "IndexError: blocks is empty"
  | some root =>
    match tree with
    | [] => Except.error "IndexError: tree has no keys"
    | (_, t0) :: _ =>
      let mm := walk [t0]
      Except.ok (root, mm.1, mm.2)

/-- The page template of templates.py with its five format slots: the
style slot (the empty CSS constant concatenated with the style
argument), the title, the logo name, the menu and the main content. -/
def templateHtml (name menu content style : String) : String :=
  "<!DOCTYPE html><html lang=" ++ sq ++ "en" ++ sq ++ "><head><meta charset="
  ++ sq ++ "UTF-8" ++ sq ++ "><meta name=" ++ sq ++ "viewport" ++ sq
  ++ " content=" ++ sq ++ "width=device-width, initial-scale=1.0" ++ sq
  ++ "><link href=" ++ sq
  ++ "https://fonts.googleapis.com/css?family=Montserrat:200,300,700" ++ sq
  ++ " rel=" ++ sq ++ "stylesheet" ++ sq ++ "><link rel=" ++ sq ++ "stylesheet"
  ++ sq ++ " type=" ++ sq ++ "text/css" ++ sq ++ " href=" ++ sq
  ++ "https://cdn.rawgit.com/synesenom/whiteprint/2ef94c22/wp.min.css" ++ sq
  ++ "><link rel=" ++ sq ++ "stylesheet" ++ sq ++ " type=" ++ sq ++ "text/css"
  ++ sq ++ " href=" ++ sq ++ "../style/adt.css" ++ sq ++ "><style>"
  ++ ("" ++ style) ++ "</style><title>" ++ name
  ++ "</title></head><body><input type=" ++ sq ++ "checkbox" ++ sq ++ " id="
  ++ sq ++ "menu" ++ sq ++ "><label for=" ++ sq ++ "menu" ++ sq ++ " id=" ++ sq
  ++ "open" ++ sq ++ ">☰</label><aside><div class=" ++ sq ++ "logo" ++ sq
  ++ ">" ++ name ++ "</div><nav><div>" ++ menu
  ++ "</div></nav></aside><main>" ++ content ++ "<label for=" ++ sq ++ "menu"
  ++ sq ++ " id=" ++ sq ++ "exit" ++ sq ++ "></label><a href=" ++ sq
  ++ "https://www.sonymobile.com/" ++ sq ++ "><img class=" ++ sq
  ++ "sony-logo sony-x" ++ sq ++ " src=" ++ sq ++ "../img/x.png" ++ sq
  ++ "/></a><img class=" ++ sq ++ "sony-logo sony-ao" ++ sq ++ " src=" ++ sq
  ++ "../img/ao.png" ++ sq ++ "/></main></body></html>"

/-- DocBuilder.html from the source, as the produced document string:
traverse, then inject root, menu and content plus the extra main
argument into the template. -/
def html (blocks : List Block) (style mainExtra : String) : Except String String :=
  match htmlParts blocks with
  | Except.error e => Except.error e
  | Except.ok (root, menu, mainContent) =>
    Except.ok (templateHtml root menu (mainContent ++ mainExtra) style)

/-- A parameter with the given name, a string type, and the optional
flag when requested; for concrete examples. -/
def exParam (nm : String) (opt : Bool) : Param :=
  ⟨nm, ⟨["string"], if opt then ["optional"] else []⟩, ""⟩

/-- A concrete method block with path and id f, line 1, no flags, no
tags and the given parameters; for concrete examples. -/
def exMethod (params : List Param) : Block :=
  ⟨"f", "f", BType.method, 1, false, false, false, false, "", params,
    [], [], [], none, [], []⟩

/-- C1 amended: the signature opens a bracket before every optional
parameter and appends all closing brackets after the last parameter.
With only the last of three parameters optional this gives
f(a, b[, c]); with a trailing optional run it gives cascading closes
f(a, b[, c[, d]]); but with only the first parameter optional it gives
f([a, b, c]), the bracket closing only after the last parameter, not
f([a], b, c) as claimed. -/
theorem C1_signature_brackets (b1 b2 b3 : Block) (p1 p2 p3 p4 : Param)
    (h1 : isOptional p1 = false) (h2 : isOptional p2 = false)
    (h3 : isOptional p3 = true) (h4 : isOptional p4 = true)
    (hb1 : b1.param = [p1, p2, p3]) (hb2 : b2.param = [p1, p2, p3, p4])
    (hb3 : b3.param = [p3, p1, p2]) :
    methodSig b1
      = b1.path ++ "(" ++ (p1.name ++ ", " ++ p2.name ++ "[, " ++ p3.name ++ "]") ++ ")"
    ∧ methodSig b2
      = b2.path ++ "(" ++ (p1.name ++ ", " ++ p2.name ++ "[, " ++ p3.name
          ++ "[, " ++ p4.name ++ "]]") ++ ")"
    ∧ methodSig b3
      = b3.path ++ "(" ++ ("[" ++ p3.name ++ ", " ++ p1.name ++ ", " ++ p2.name ++ "]") ++ ")" := by
  have hlit : ("[" ++ ", " : String) = "[, " := rfl
  have hm : ∀ X : String, "[" ++ (", " ++ X) = "[, " ++ X := fun X => by
    rw [← String.append_assoc, hlit]
  refine ⟨?_, ?_, ?_⟩ <;>
    simp [methodSig, methodCode, hb1, hb2, hb3, h1, h2, h3, h4, joinStr,
      String.append_assoc, hm]

/-- Witness for C1 amended at concrete parameters a, b, c, d. -/
theorem C1_signature_brackets_witness :
    (isOptional (exParam "a" false) = false ∧ isOptional (exParam "c" true) = true)
    ∧ methodSig (exMethod [exParam "a" false, exParam "b" false, exParam "c" true])
      = "f" ++ "(" ++ ("a" ++ ", " ++ "b" ++ "[, " ++ "c" ++ "]") ++ ")" :=
  ⟨⟨by decide, by decide⟩,
    (C1_signature_brackets
      (exMethod [exParam "a" false, exParam "b" false, exParam "c" true])
      (exMethod [exParam "a" false, exParam "b" false, exParam "c" true,
        exParam "d" true])
      (exMethod [exParam "c" true, exParam "a" false, exParam "b" false])
      (exParam "a" false) (exParam "b" false) (exParam "c" true) (exParam "d" true)
      (by decide) (by decide) (by decide) (by decide)
      rfl rfl rfl).1⟩

/-- C1 counterexample: for a method with only the first of three
parameters optional the rendered signature is f([a, b, c]) and not the
claimed f([a], b, c). -/
theorem C1_counterexample :
    methodSig (exMethod [exParam "a" true, exParam "b" false, exParam "c" false])
      = "f([a, b, c])"
    ∧ methodSig (exMethod [exParam "a" true, exParam "b" false, exParam "c" false])
      ≠ "f([a], b, c)" := by
  refine ⟨by decide, by decide⟩

/-- C2 counterexample: on an empty block list the html export raises
(IndexError on the first block while computing the root) instead of
producing a minimal valid document. -/
theorem C2_counterexample :
    html [] "" "" = Except.error "IndexError: blocks is empty" := rfl

/-- C2 amended: an empty block list builds an empty tree, but the html
export then fails with the IndexError of the root computation rather
than rendering a minimal document. -/
theorem C2_empty_input :
    buildTree [] = [] ∧ rootStr [] = none
    ∧ htmlParts [] = Except.error "IndexError: blocks is empty" :=
  ⟨rfl, rfl, rfl⟩

/-- The block stored at a nonempty segment path in a children
dictionary. -/
def nodeAtSegs : List (String × TNode) → List String → Option Block
  | _, [] => none
  | ch, [s] =>
    match lookupC ch s with
    | some c => c.node
    | none => none
  | ch, s :: rest =>
    match lookupC ch s with
    | some c => nodeAtSegs c.children rest
    | none => none

theorem lookupC_updateChild_self (ch : List (String × TNode)) (s : String) (c : TNode) :
    lookupC (updateChild ch s c) s = some c := by
  induction ch with
  | nil => simp [updateChild, lookupC]
  | cons kv rest ih =>
    rcases kv with ⟨k, v⟩
    by_cases hk : k = s
    · simp [updateChild, hk, lookupC]
    · simp [updateChild, hk, lookupC, ih]

theorem lookupC_updateChild_ne (ch : List (String × TNode)) (s k : String) (c : TNode)
    (h : k ≠ s) : lookupC (updateChild ch s c) k = lookupC ch k := by
  induction ch with
  | nil =>
    have hs : ¬ (s = k) := fun hc => h (Eq.symm hc)
    simp [updateChild, lookupC, hs]
  | cons kv rest ih =>
    rcases kv with ⟨k', v⟩
    by_cases hk : k' = s
    · subst hk
      have hs : ¬ (k' = k) := fun hc => h (Eq.symm hc)
      simp [updateChild, lookupC, hs]
    · simp only [updateChild, if_neg hk, lookupC]
      by_cases hkk : k' = k
      · simp [hkk]
      · simp [hkk, ih]

theorem node_addLeafGo_nil (b : Block) (t : TNode) (l : Nat) :
    (addLeafGo b t [] l).node = some b := by
  rcases t with ⟨nd, ch, lv⟩; rfl

/-- Adding a leaf along a nonempty segment list places the leaf block
at exactly that segment path, whatever the prior tree contents. -/
theorem nodeAt_addLeafGo (b : Block) :
    ∀ (segs : List String) (t : TNode) (l : Nat), segs ≠ [] →
      nodeAtSegs (addLeafGo b t segs l).children segs = some b := by
  intro segs
  induction segs with
  | nil => intro t l h; exact absurd rfl h
  | cons s rest ih =>
    intro t l _
    rcases t with ⟨nd, ch, lv⟩
    cases rest with
    | nil =>
      simp only [addLeafGo, TNode.children, nodeAtSegs, lookupC_updateChild_self]
      exact node_addLeafGo_nil b _ _
    | cons s2 rest2 =>
      simp only [addLeafGo, TNode.children, nodeAtSegs, lookupC_updateChild_self]
      exact ih _ (l + 1) (by simp)

/-- A concrete block with the given path, id, type and line, carrying
no flags and no tags; for concrete examples. -/
def exBlockAt (p i : String) (t : BType) (ln : Nat) : Block :=
  ⟨p, i, t, ln, false, false, false, false, "", [], [], [], [], none, [], []⟩

/-- C7 amended: when two blocks share a path, tree construction
continues and the later block overwrites the earlier one at that path,
but no signal of any kind is emitted: the diagnostic log of the
instrumented builder stays empty, because the source has no logging. -/
theorem C7_duplicate_overwrite (b1 b2 : Block) (h : b1.path = b2.path) :
    nodeAtSegs (buildTreeLogged [b1, b2]).1 (splitDot b2.path) = some b2
    ∧ (buildTreeLogged [b1, b2]).2 = [] := by
  constructor
  · show nodeAtSegs (buildTree [b1, b2]) (splitDot b2.path) = some b2
    simp only [buildTree, List.foldl, Path.add_leaf]
    exact nodeAt_addLeafGo b2 _ _ 0 (splitDot_ne_nil _)
  · rfl

/-- Witness for C7 amended with two module blocks at path a. -/
theorem C7_duplicate_overwrite_witness :
    (exBlockAt "a" "a" BType.module 1).path = (exBlockAt "a" "a" BType.module 5).path
    ∧ nodeAtSegs
        (buildTreeLogged [exBlockAt "a" "a" BType.module 1,
          exBlockAt "a" "a" BType.module 5]).1
        (splitDot (exBlockAt "a" "a" BType.module 5).path)
      = some (exBlockAt "a" "a" BType.module 5)
    ∧ (buildTreeLogged [exBlockAt "a" "a" BType.module 1,
        exBlockAt "a" "a" BType.module 5]).2 = [] :=
  ⟨rfl,
    C7_duplicate_overwrite (exBlockAt "a" "a" BType.module 1)
      (exBlockAt "a" "a" BType.module 5) rfl⟩

/-- C7 counterexample: at a concrete duplicate path the later block
overwrites the earlier one while the diagnostic log stays empty, so the
collision is resolved without any warning-level signal, refuting the
claim that it is never resolved silently. -/
theorem C7_counterexample :
    nodeAtSegs (buildTreeLogged [exBlockAt "a" "a" BType.module 1,
        exBlockAt "a" "a" BType.module 5]).1 ["a"]
      = some (exBlockAt "a" "a" BType.module 5)
    ∧ (buildTreeLogged [exBlockAt "a" "a" BType.module 1,
        exBlockAt "a" "a" BType.module 5]).2 = [] := by
  refine ⟨by decide, rfl⟩

/-- C6: building the tree from three blocks at paths a.b, a.c and
a.b.d, in any insertion order, yields the same keyed tree: one top
segment a with a null node and exactly the two children b and c, where
b holds the a.b block and exactly one child d holding the a.b.d block
at level 2, and c holds the a.c block with no children; the synthetic
intermediate node a has node null. -/
theorem C6_tree_shape (b1 b2 b3 : Block)
    (h1 : b1.path = "a.b") (h2 : b2.path = "a.c") (h3 : b3.path = "a.b.d")
    (l : List Block)
    (hl : l = [b1, b2, b3] ∨ l = [b1, b3, b2] ∨ l = [b2, b1, b3]
        ∨ l = [b2, b3, b1] ∨ l = [b3, b1, b2] ∨ l = [b3, b2, b1]) :
    ∃ chA : List (String × TNode),
      buildTree l = [("a", ⟨none, chA, 0⟩)]
      ∧ lookupC chA "b" = some ⟨some b1, [("d", ⟨some b3, [], 2⟩)], 1⟩
      ∧ lookupC chA "c" = some ⟨some b2, [], 1⟩
      ∧ chA.length = 2 := by
  rcases hl with rfl | rfl | rfl | rfl | rfl | rfl <;>
  · simp only [buildTree, List.foldl, Path.add_leaf]
    rw [h1, h2, h3]
    exact ⟨_, rfl, rfl, rfl, rfl⟩

/-- Witness for C6 at concrete blocks, in one concrete order. -/
theorem C6_tree_shape_witness :
    ((exBlockAt "a.b" "b" BType.cls 3).path = "a.b"
      ∧ (exBlockAt "a.c" "c" BType.cls 4).path = "a.c"
      ∧ (exBlockAt "a.b.d" "d" BType.method 5).path = "a.b.d")
    ∧ ∃ chA : List (String × TNode),
      buildTree [exBlockAt "a.c" "c" BType.cls 4, exBlockAt "a.b.d" "d" BType.method 5,
          exBlockAt "a.b" "b" BType.cls 3]
        = [("a", ⟨none, chA, 0⟩)]
      ∧ lookupC chA "b"
        = some ⟨some (exBlockAt "a.b" "b" BType.cls 3),
            [("d", ⟨some (exBlockAt "a.b.d" "d" BType.method 5), [], 2⟩)], 1⟩
      ∧ lookupC chA "c" = some ⟨some (exBlockAt "a.c" "c" BType.cls 4), [], 1⟩
      ∧ chA.length = 2 :=
  ⟨⟨rfl, rfl, rfl⟩,
    C6_tree_shape (exBlockAt "a.b" "b" BType.cls 3) (exBlockAt "a.c" "c" BType.cls 4)
      (exBlockAt "a.b.d" "d" BType.method 5) rfl rfl rfl _
      (Or.inr (Or.inr (Or.inr (Or.inl rfl))))⟩

theorem childKey_none {n : TNode} (h : n.node = none) : childKey n = 1 := by
  simp [childKey, h]

theorem childKey_some {n : TNode} {b : Block} (h : n.node = some b) :
    childKey n = b.line := by
  simp [childKey, h]

theorem sorted_childrenDesc (n : TNode) :
    List.Pairwise descRel (childrenDesc n) :=
  List.sorted_insertionSort descRel (childNodes n)

/-- The reversed output of _children is pairwise ascending by key. -/
theorem pairwise_asc_rev_childrenDesc (n : TNode) :
    List.Pairwise (fun a b => childKey a ≤ childKey b) ((childrenDesc n).reverse) := by
  rw [List.pairwise_reverse]
  exact sorted_childrenDesc n

/-- C10: the sorted-children operation keys synthetic nodes with the
constant 1, so in the ascending visit order (the reverse of the
descending _children output) a synthetic child precedes every
documented sibling whose line number exceeds 1. -/
theorem C10_synthetic_key (n : TNode)
    (i j : Fin ((childrenDesc n).reverse.length))
    (hs : (((childrenDesc n).reverse).get i).node = none)
    (hd : ∃ b, (((childrenDesc n).reverse).get j).node = some b ∧ 1 < b.line) :
    (∀ (ch : List (String × TNode)) (lv : Nat), childKey ⟨none, ch, lv⟩ = 1)
    ∧ (i : ℕ) < (j : ℕ) := by
  refine ⟨fun ch lv => rfl, ?_⟩
  rcases hd with ⟨b, hj, hb⟩
  by_contra hij
  push_neg at hij
  have hne : (j : ℕ) ≠ (i : ℕ) := by
    intro hji
    have : i = j := Fin.ext hji.symm
    rw [this, hj] at hs
    exact Option.noConfusion hs
  have hji : (j : ℕ) < (i : ℕ) := lt_of_le_of_ne hij hne
  have hpair := List.pairwise_iff_get.mp (pairwise_asc_rev_childrenDesc n) j i hji
  rw [childKey_some hj, childKey_none hs] at hpair
  omega

/-- A concrete node with one synthetic child and one documented child
at line 5, for the C10 witness. -/
def exN : TNode :=
  ⟨some (exBlockAt "r" "r" BType.module 2),
    [("s", ⟨none, [], 1⟩),
     ("m", ⟨some (exBlockAt "r.m" "m" BType.method 5), [], 1⟩)], 0⟩

/-- Witness for C10 at the concrete node exN. -/
theorem C10_synthetic_key_witness :
    ((((childrenDesc exN).reverse).get ⟨0, by decide⟩).node = none
    ∧ (∃ b, (((childrenDesc exN).reverse).get ⟨1, by decide⟩).node = some b
        ∧ 1 < b.line))
    ∧ (∀ (ch : List (String × TNode)) (lv : Nat), childKey ⟨none, ch, lv⟩ = 1)
    ∧ ((⟨0, by decide⟩ : Fin ((childrenDesc exN).reverse.length)) : ℕ)
      < ((⟨1, by decide⟩ : Fin ((childrenDesc exN).reverse.length)) : ℕ) :=
  ⟨⟨by decide, ⟨exBlockAt "r.m" "m" BType.method 5, by decide, by decide⟩⟩,
    C10_synthetic_key exN ⟨0, by decide⟩ ⟨1, by decide⟩ (by decide)
      ⟨exBlockAt "r.m" "m" BType.method 5, by decide, by decide⟩⟩

theorem mem_sortAsc {c : TNode} {l : List TNode}
    (h : c ∈ List.insertionSort ascRel l) : c ∈ l :=
  (List.perm_insertionSort _ _).subset h

/-- With pairwise-distinct keys, reversing the stable descending sort
of _children agrees with the stable ascending sort: both are the unique
strictly ascending arrangement. -/
theorem sortDesc_reverse_eq_sortAsc (l : List TNode)
    (hnd : (l.map childKey).Nodup) :
    (List.insertionSort descRel l).reverse = List.insertionSort ascRel l := by
  have hperm1 : (List.insertionSort descRel l).reverse.Perm l :=
    (List.reverse_perm _).trans (List.perm_insertionSort _ _)
  have hperm2 : (List.insertionSort ascRel l).Perm l :=
    List.perm_insertionSort _ _
  have hne : List.Pairwise (fun a b => childKey a ≠ childKey b) l :=
    List.pairwise_map.mp hnd
  have hne1 : List.Pairwise (fun a b => childKey a ≠ childKey b)
      ((List.insertionSort descRel l).reverse) :=
    (hperm1.pairwise_iff (fun h => Ne.symm h)).mpr hne
  have hne2 : List.Pairwise (fun a b => childKey a ≠ childKey b)
      (List.insertionSort ascRel l) :=
    (hperm2.pairwise_iff (fun h => Ne.symm h)).mpr hne
  have hasc1 : List.Pairwise (fun a b => childKey a ≤ childKey b)
      ((List.insertionSort descRel l).reverse) := by
    rw [List.pairwise_reverse]
    exact List.sorted_insertionSort descRel l
  have hasc2 : List.Pairwise (fun a b => childKey a ≤ childKey b)
      (List.insertionSort ascRel l) :=
    List.sorted_insertionSort ascRel l
  have hlt1 : List.Pairwise keyLt ((List.insertionSort descRel l).reverse) :=
    (hasc1.and hne1).imp (fun h => lt_of_le_of_ne h.1 h.2)
  have hlt2 : List.Pairwise keyLt (List.insertionSort ascRel l) :=
    (hasc2.and hne2).imp (fun h => lt_of_le_of_ne h.1 h.2)
  exact List.eq_of_perm_of_sorted (hperm1.trans hperm2.symm) hlt1 hlt2

/-- Spec-side recursive pre-order traversal: visit the node, then the
children sorted ascending by line, each subtree in full, first to
last. -/
def preOrder (n : TNode) : List TNode :=
  n :: ((List.insertionSort ascRel (childNodes n)).attach.map
    (fun c => preOrder c.1)).flatten
termination_by nodeSize n
decreasing_by exact nodeSize_childNodes (mem_sortAsc c.2)

/-- The visit order of the html rendering loop, mechanics only: pop a
node, visit it, push its children sorted descending by line so that the
next pop takes the lowest line first. -/
def stackOrder : List TNode → List TNode
  | [] => []
  | n :: s => n :: stackOrder ((childrenDesc n).reverse ++ s)
termination_by s => stackW s
decreasing_by exact stackW_push_lt n s

/-- Sibling keys are pairwise distinct throughout a tree. -/
inductive KeysOk : TNode → Prop where
  | mk : ∀ (nd : Option Block) (ch : List (String × TNode)) (lv : Nat),
      ((ch.map Prod.snd).map childKey).Nodup →
      (∀ p ∈ ch, KeysOk p.2) →
      KeysOk ⟨nd, ch, lv⟩

theorem KeysOk.keys_nodup {n : TNode} (h : KeysOk n) :
    ((childNodes n).map childKey).Nodup := by
  rcases h with ⟨nd, ch, lv, hnd, hch⟩
  simpa [childNodes, TNode.children] using hnd

theorem KeysOk.child {n c : TNode} (h : KeysOk n) (hc : c ∈ childNodes n) :
    KeysOk c := by
  rcases h with ⟨nd, ch, lv, hnd, hch⟩
  simp only [childNodes, TNode.children] at hc
  rcases List.mem_map.mp hc with ⟨p, hp, rfl⟩
  exact hch p hp

theorem mem_childrenDesc_rev_children {c n : TNode}
    (h : c ∈ (childrenDesc n).reverse) : c ∈ childNodes n :=
  (List.perm_insertionSort descRel (childNodes n)).subset
    ((List.reverse_perm _).subset h)

/-- The stack traversal of a stack of key-distinct trees is the
concatenation of their recursive ascending pre-orders. -/
theorem stackOrder_eq_preOrder_aux :
    ∀ (w : Nat) (s : List TNode), stackW s ≤ w → (∀ n ∈ s, KeysOk n) →
      stackOrder s = (s.map preOrder).flatten := by
  intro w
  induction w with
  | zero =>
    intro s hw hok
    cases s with
    | nil => simp [stackOrder]
    | cons n rest =>
      exfalso
      have h1 := stackW_cons n rest
      have h2 := nodeSize_pos n
      omega
  | succ w ih =>
    intro s hw hok
    cases s with
    | nil => simp [stackOrder]
    | cons n rest =>
      have hkn : KeysOk n := hok n (List.mem_cons_self _ _)
      have hsort : (childrenDesc n).reverse
          = List.insertionSort ascRel (childNodes n) :=
        sortDesc_reverse_eq_sortAsc (childNodes n) hkn.keys_nodup
      have hwlt : stackW ((childrenDesc n).reverse ++ rest) ≤ w := by
        have := stackW_push_lt n rest
        have := stackW_cons n rest
        omega
      have hokpush : ∀ m ∈ (childrenDesc n).reverse ++ rest, KeysOk m := by
        intro m hm
        rcases List.mem_append.mp hm with hm | hm
        · exact hkn.child (mem_childrenDesc_rev_children hm)
        · exact hok m (List.mem_cons_of_mem _ hm)
      have hstep := ih ((childrenDesc n).reverse ++ rest) hwlt hokpush
      simp only [stackOrder, hstep, List.map_append, List.flatten_append,
        List.map_cons, List.flatten_cons]
      rw [hsort]
      have hpre : preOrder n
          = n :: ((List.insertionSort ascRel (childNodes n)).map preOrder).flatten := by
        rw [preOrder]
        rw [show (List.insertionSort ascRel (childNodes n)).attach.map
            (fun c => preOrder c.1)
          = (List.insertionSort ascRel (childNodes n)).map preOrder from
            List.attach_map_coe _ _]
      rw [hpre]
      simp

mutual

/-- Every node of the tree is documented: no synthetic nodes. -/
def allDocB : TNode → Bool
  | ⟨nd, ch, _⟩ => nd.isSome && allDocF ch

/-- allDocB over a children association list. -/
def allDocF : List (String × TNode) → Bool
  | [] => true
  | (_, c) :: rest => allDocB c && allDocF rest

end

mutual

/-- The blocks stored in a tree, own node first, children in
dictionary order. -/
def blocksOf : TNode → List Block
  | ⟨nd, ch, _⟩ => nd.toList ++ blocksForest ch

/-- blocksOf over a children association list. -/
def blocksForest : List (String × TNode) → List Block
  | [] => []
  | (_, c) :: rest => blocksOf c ++ blocksForest rest

end

theorem blocksForest_eq_flatten (ch : List (String × TNode)) :
    blocksForest ch = (ch.map (fun p => blocksOf p.2)).flatten := by
  induction ch with
  | nil => simp [blocksForest]
  | cons p rest ih =>
    rcases p with ⟨k, c⟩
    simp [blocksForest, ih]

theorem allDocF_mem {ch : List (String × TNode)} (h : allDocF ch = true) :
    ∀ p ∈ ch, allDocB p.2 = true := by
  induction ch with
  | nil => intro p hp; simp at hp
  | cons q rest ih =>
    rcases q with ⟨k, c⟩
    simp only [allDocF, Bool.and_eq_true] at h
    intro p hp
    rcases List.mem_cons.mp hp with hp | hp
    · subst hp; exact h.1
    · exact ih h.2 p hp

theorem allDocB_node {n : TNode} (h : allDocB n = true) :
    ∃ b, n.node = some b := by
  rcases n with ⟨nd, ch, lv⟩
  simp only [allDocB, Bool.and_eq_true] at h
  rcases Option.isSome_iff_exists.mp h.1 with ⟨b, hb⟩
  exact ⟨b, hb⟩

theorem blocksOf_cons {nd : Option Block} {ch : List (String × TNode)} {lv : Nat}
    {b : Block} (h : nd = some b) :
    blocksOf ⟨nd, ch, lv⟩ = b :: blocksForest ch := by
  subst h
  simp [blocksOf, Option.toList]

theorem blocksOf_sublist {p : String × TNode} {ch : List (String × TNode)}
    (h : p ∈ ch) : (blocksOf p.2).Sublist (blocksForest ch) := by
  induction ch with
  | nil => simp at h
  | cons q rest ih =>
    rcases q with ⟨k, c⟩
    show (blocksOf p.2).Sublist (blocksOf c ++ blocksForest rest)
    rcases List.mem_cons.mp h with hp | hp
    · subst hp
      exact List.sublist_append_left _ _
    · exact (ih hp).trans (List.sublist_append_right _ _)

theorem line_mem_blocksOf {c : TNode} {b : Block} (h : c.node = some b) :
    b.line ∈ (blocksOf c).map Block.line := by
  rcases c with ⟨nd, ch, lv⟩
  simp only [TNode.node] at h
  rw [blocksOf_cons h]
  simp

/-- Globally distinct lines on a fully documented tree give pairwise
distinct sibling keys at every node. -/
theorem keysOk_of_allDoc_nodup (w : Nat) :
    ∀ n : TNode, nodeSize n ≤ w → allDocB n = true →
      ((blocksOf n).map Block.line).Nodup → KeysOk n := by
  induction w with
  | zero =>
    intro n hw _ _
    exact absurd hw (by have := nodeSize_pos n; omega)
  | succ w ih =>
    intro n hw hdoc hnd
    rcases n with ⟨nd, ch, lv⟩
    simp only [allDocB, Bool.and_eq_true] at hdoc
    have hForestNodup : ((blocksForest ch).map Block.line).Nodup := by
      have h1 : blocksOf ⟨nd, ch, lv⟩ = nd.toList ++ blocksForest ch := by
        simp [blocksOf]
      rw [h1, List.map_append] at hnd
      exact hnd.of_append_right
    have hdisj : List.Pairwise (fun p q : String × TNode =>
        List.Disjoint ((blocksOf p.2).map Block.line) ((blocksOf q.2).map Block.line))
        ch := by
      rw [blocksForest_eq_flatten, List.map_flatten, List.map_map] at hForestNodup
      have := (List.nodup_flatten.mp hForestNodup).2
      exact List.pairwise_map.mp this
    have hkeysne : List.Pairwise (fun p q : String × TNode =>
        childKey p.2 ≠ childKey q.2) ch := by
      refine hdisj.imp_of_mem ?_
      intro p q hp hq hpq
      rcases allDocB_node (allDocF_mem hdoc.2 p hp) with ⟨bp, hbp⟩
      rcases allDocB_node (allDocF_mem hdoc.2 q hq) with ⟨bq, hbq⟩
      rw [childKey_some hbp, childKey_some hbq]
      intro heq
      exact hpq (line_mem_blocksOf hbp) (heq ▸ line_mem_blocksOf hbq)
    refine KeysOk.mk nd ch lv ?_ ?_
    · rw [List.map_map]
      exact List.pairwise_map.mpr hkeysne
    · intro p hp
      have hsize : nodeSize p.2 ≤ w := by
        have h1 : nodeSize p.2 < nodeSize ⟨nd, ch, lv⟩ :=
          nodeSize_childNodes (by
            simp only [childNodes, TNode.children]
            exact List.mem_map.mpr ⟨p, hp, rfl⟩)
        omega
      have hsub : ((blocksOf p.2).map Block.line).Nodup :=
        hForestNodup.sublist ((blocksOf_sublist hp).map _)
      exact ih p.2 hsize (allDocF_mem hdoc.2 p hp) hsub

/-- C4: on a tree of documented blocks with globally distinct source
lines, the stack traversal of the renderer (children sorted descending,
pushed, popped LIFO) visits nodes in exactly the order of the recursive
pre-order traversal with siblings ascending by line: the two strategies
are equivalent. -/
theorem C4_traversal_equivalence (t : TNode) (hdoc : allDocB t = true)
    (hnd : ((blocksOf t).map Block.line).Nodup) :
    stackOrder [t] = preOrder t := by
  have hok : KeysOk t :=
    keysOk_of_allDoc_nodup (nodeSize t) t le_rfl hdoc hnd
  have h := stackOrder_eq_preOrder_aux (stackW [t]) [t] le_rfl
    (by intro m hm; rcases List.mem_singleton.mp hm with rfl; exact hok)
  simpa using h

/-- A concrete fully documented tree with distinct lines for the C4
witness: a module at line 1 with two children at lines 3 and 2. -/
def exT : TNode :=
  ⟨some (exBlockAt "r" "r" BType.module 1),
    [("x", ⟨some (exBlockAt "r.x" "x" BType.method 3), [], 1⟩),
     ("y", ⟨some (exBlockAt "r.y" "y" BType.var 2), [], 1⟩)], 0⟩

/-- Witness for C4 at the concrete tree exT. -/
theorem C4_traversal_equivalence_witness :
    (allDocB exT = true ∧ ((blocksOf exT).map Block.line).Nodup)
    ∧ stackOrder [exT] = preOrder exT := by
  have h1 : allDocB exT = true := by
    simp [exT, allDocB, allDocF]
  have h2 : ((blocksOf exT).map Block.line).Nodup := by
    simp [exT, blocksOf, blocksForest, exBlockAt]
  exact ⟨⟨h1, h2⟩, C4_traversal_equivalence exT h1 h2⟩

theorem mem_pair_size {k : String} {c : TNode} {nd : Option Block}
    {ch : List (String × TNode)} {lv : Nat} (h : (k, c) ∈ ch) :
    nodeSize c < nodeSize ⟨nd, ch, lv⟩ :=
  nodeSize_childNodes (by
    simp only [childNodes, TNode.children]
    exact List.mem_map.mpr ⟨(k, c), h, rfl⟩)

mutual

/-- The spec-side hard prune: delete every flagged child subtree,
recursively. -/
def pruneFn : TNode → TNode
  | ⟨nd, ch, lv⟩ => ⟨nd, pruneForest ch, lv⟩

/-- The hard prune of a children association list. -/
def pruneForest : List (String × TNode) → List (String × TNode)
  | [] => []
  | (k, c) :: rest =>
    if flaggedN c then pruneForest rest
    else (k, pruneFn c) :: pruneForest rest

end

/-- The prune of a renderer stack: drop flagged nodes and prune the
surviving subtrees. -/
def pruneStack (s : List TNode) : List TNode :=
  (s.filter (fun n => !flaggedN n)).map pruneFn

theorem pruneFn_node (n : TNode) : (pruneFn n).node = n.node := by
  rcases n with ⟨nd, ch, lv⟩
  simp [pruneFn, TNode.node]

theorem pruneFn_level (n : TNode) : (pruneFn n).level = n.level := by
  rcases n with ⟨nd, ch, lv⟩
  simp [pruneFn, TNode.level]

theorem pruneForest_map_snd (ch : List (String × TNode)) :
    (pruneForest ch).map Prod.snd
      = ((ch.map Prod.snd).filter (fun c => !flaggedN c)).map pruneFn := by
  induction ch with
  | nil => simp [pruneForest]
  | cons q rest ih =>
    rcases q with ⟨k, c⟩
    by_cases hf : flaggedN c
    · simp only [pruneForest, if_pos hf, List.map_cons, List.filter, hf]
      exact ih
    · have hf' : flaggedN c = false := by simpa using hf
      simp only [pruneForest, if_neg hf, List.map_cons, List.filter, hf']
      simp [ih]

theorem childKey_pruneFn (n : TNode) : childKey (pruneFn n) = childKey n := by
  simp [childKey, pruneFn_node]

theorem flaggedN_pruneFn (n : TNode) : flaggedN (pruneFn n) = flaggedN n := by
  simp [flaggedN, pruneFn_node]

theorem childNodes_pruneFn (n : TNode) :
    childNodes (pruneFn n)
      = ((childNodes n).filter (fun c => !flaggedN c)).map pruneFn := by
  rcases n with ⟨nd, ch, lv⟩
  simp only [pruneFn, childNodes, TNode.children]
  exact pruneForest_map_snd ch

theorem orderedInsert_eq_cons {a : TNode} {m : List TNode}
    (h : ∀ y ∈ m, descRel a y) :
    List.orderedInsert descRel a m = a :: m := by
  cases m with
  | nil => rfl
  | cons y m' =>
    simp only [List.orderedInsert]
    rw [if_pos (h y (List.mem_cons_self _ _))]

theorem filter_orderedInsert_neg (p : TNode → Bool) (a : TNode)
    (ha : p a = false) :
    ∀ l : List TNode,
      (List.orderedInsert descRel a l).filter p = l.filter p := by
  intro l
  induction l with
  | nil => simp [List.orderedInsert, List.filter, ha]
  | cons b l' ih =>
    simp only [List.orderedInsert]
    by_cases hr : descRel a b
    · rw [if_pos hr]
      simp [List.filter, ha]
    · rw [if_neg hr]
      by_cases hb : p b
      · simp only [List.filter, hb, ih]
      · simp only [List.filter] at ih ⊢
        simp [hb, ih]

theorem filter_orderedInsert_pos (p : TNode → Bool) (a : TNode)
    (ha : p a = true) :
    ∀ l : List TNode, List.Pairwise descRel l →
      (List.orderedInsert descRel a l).filter p
        = List.orderedInsert descRel a (l.filter p) := by
  intro l
  induction l with
  | nil => intro _; simp [List.orderedInsert, List.filter, ha]
  | cons b l' ih =>
    intro hs
    simp only [List.orderedInsert]
    by_cases hr : descRel a b
    · rw [if_pos hr]
      by_cases hb : p b
      · simp only [List.filter, hb, ha]
        rw [orderedInsert_eq_cons]
        intro y hy
        rcases List.mem_cons.mp hy with rfl | hy
        · exact hr
        · exact Nat.le_trans
            (List.rel_of_pairwise_cons hs (List.mem_of_mem_filter hy)) hr
      · simp only [List.filter, hb, ha]
        rw [orderedInsert_eq_cons]
        intro y hy
        exact Nat.le_trans
          (List.rel_of_pairwise_cons hs (List.mem_of_mem_filter hy)) hr
    · rw [if_neg hr]
      by_cases hb : p b
      · simp only [List.filter, hb]
        rw [ih hs.of_cons]
        simp only [List.orderedInsert]
        rw [if_neg hr]
      · simp only [List.filter, hb]
        exact ih hs.of_cons

/-- The stable descending sort commutes with filtering. -/
theorem insertionSort_filter (p : TNode → Bool) (l : List TNode) :
    List.insertionSort descRel (l.filter p)
      = (List.insertionSort descRel l).filter p := by
  induction l with
  | nil => rfl
  | cons a l' ih =>
    by_cases ha : p a = true
    · simp only [List.filter, ha, List.insertionSort, ih]
      rw [filter_orderedInsert_pos p a ha _ (List.sorted_insertionSort descRel l')]
    · have ha' : p a = false := by simpa using ha
      simp only [List.filter, ha', List.insertionSort, ih]
      rw [filter_orderedInsert_neg p a ha']

theorem orderedInsert_map_keyPreserving (f : TNode → TNode)
    (hf : ∀ x, childKey (f x) = childKey x) (a : TNode) :
    ∀ l : List TNode,
      List.orderedInsert descRel (f a) (l.map f)
        = (List.orderedInsert descRel a l).map f := by
  intro l
  induction l with
  | nil => rfl
  | cons b l' ih =>
    simp only [List.map_cons, List.orderedInsert]
    have hiff : descRel (f a) (f b) ↔ descRel a b := by
      simp [descRel, hf]
    by_cases hr : descRel a b
    · rw [if_pos (hiff.mpr hr), if_pos hr]
      simp
    · rw [if_neg (fun hc => hr (hiff.mp hc)), if_neg hr]
      simp [ih]

/-- The stable descending sort commutes with a key-preserving map. -/
theorem insertionSort_map_keyPreserving (f : TNode → TNode)
    (hf : ∀ x, childKey (f x) = childKey x) (l : List TNode) :
    List.insertionSort descRel (l.map f)
      = (List.insertionSort descRel l).map f := by
  induction l with
  | nil => rfl
  | cons a l' ih =>
    simp only [List.map_cons, List.insertionSort, ih]
    exact orderedInsert_map_keyPreserving f hf a _

/-- The reversed sorted children of a pruned node are the pruned stack
of the reversed sorted children of the node. -/
theorem push_pruneFn (n : TNode) :
    (childrenDesc (pruneFn n)).reverse
      = pruneStack ((childrenDesc n).reverse) := by
  rw [pruneStack, List.filter_reverse, List.map_reverse]
  congr 1
  rw [childrenDesc, childNodes_pruneFn,
    insertionSort_map_keyPreserving pruneFn childKey_pruneFn,
    insertionSort_filter, childrenDesc]

theorem pruneStack_append (s1 s2 : List TNode) :
    pruneStack (s1 ++ s2) = pruneStack s1 ++ pruneStack s2 := by
  simp [pruneStack]

theorem pruneStack_cons_flagged {n : TNode} (h : flaggedN n = true)
    (s : List TNode) : pruneStack (n :: s) = pruneStack s := by
  simp [pruneStack, List.filter, h]

theorem pruneStack_cons_unflagged {n : TNode} (h : flaggedN n = false)
    (s : List TNode) :
    pruneStack (n :: s) = pruneFn n :: pruneStack s := by
  simp [pruneStack, List.filter, h]

theorem flaggedN_none {n : TNode} (h : n.node = none) : flaggedN n = false := by
  simp [flaggedN, h]

theorem pruneFn_mk (nd : Option Block) (ch : List (String × TNode)) (lv : Nat) :
    pruneFn ⟨nd, ch, lv⟩ = ⟨nd, pruneForest ch, lv⟩ := by
  simp [pruneFn]

theorem menuF_flagged {n : TNode} (h : flaggedN n = true) : menuF n = "" := by
  rcases n with ⟨nd, ch, lv⟩
  cases nd with
  | none => simp [flaggedN, TNode.node] at h
  | some b =>
    have hb : flaggedB b = true := by simpa [flaggedN, TNode.node] using h
    simp [menuF, hb]

/-- Pruning flagged subtrees does not change the menu of an unflagged
node: flagged children contribute the empty menu entry already. -/
theorem menuF_pruneFn_aux (w : Nat) :
    ∀ n : TNode, nodeSize n ≤ w → menuF (pruneFn n) = menuF n := by
  induction w with
  | zero =>
    intro n hw
    exact absurd hw (by have := nodeSize_pos n; omega)
  | succ w ih =>
    intro n hw
    rcases n with ⟨nd, ch, lv⟩
    rw [pruneFn_mk]
    cases nd with
    | none => simp only [menuF]
    | some b =>
      by_cases hfb : flaggedB b = true
      · simp only [menuF, hfb]
        simp
      · have hfb' : flaggedB b = false := by simpa using hfb
        by_cases hlink : b.btype = BType.method ∨ b.btype = BType.var
            ∨ b.btype = BType.property
        · simp only [menuF, hfb', hlink]
          simp
        · have hjoin : ∀ l : List TNode, (∀ c ∈ l, nodeSize c ≤ w) →
              joinStr ((pruneStack l).map menuF) = joinStr (l.map menuF) := by
            intro l
            induction l with
            | nil => intro _; rfl
            | cons c rest ihl =>
              intro hl
              have hc := hl c (List.mem_cons_self _ _)
              have hrest := fun c hcr => hl c (List.mem_cons_of_mem _ hcr)
              by_cases hfc : flaggedN c = true
              · rw [pruneStack_cons_flagged hfc]
                simp only [List.map_cons, joinStr]
                rw [menuF_flagged hfc, ihl hrest]
                simp
              · have hfc' : flaggedN c = false := by simpa using hfc
                rw [pruneStack_cons_unflagged hfc']
                simp only [List.map_cons, joinStr]
                rw [ih c hc, ihl hrest]
          simp only [menuF, hfb', hlink]
          rw [List.attach_map_coe, List.attach_map_coe]
          rw [show (⟨some b, pruneForest ch, lv⟩ : TNode)
            = pruneFn ⟨some b, ch, lv⟩ from (pruneFn_mk _ _ _).symm]
          rw [push_pruneFn]
          rw [hjoin ((childrenDesc ⟨some b, ch, lv⟩).reverse) (fun c hcm => by
            have h1 : nodeSize c < nodeSize ⟨some b, ch, lv⟩ :=
              nodeSize_childNodes (mem_childrenDesc_rev_children hcm)
            omega)]

theorem menuF_pruneFn (n : TNode) : menuF (pruneFn n) = menuF n :=
  menuF_pruneFn_aux (nodeSize n) n le_rfl

/-- The renderer traversal is invariant under the hard prune of
flagged subtrees: flagged blocks and their entire subtrees contribute
nothing to the menu or the main content. -/
theorem walk_pruneStack_aux (w : Nat) :
    ∀ s : List TNode, stackW s ≤ w → walk (pruneStack s) = walk s := by
  induction w with
  | zero =>
    intro s hw
    cases s with
    | nil => rfl
    | cons n rest =>
      exfalso
      have h1 := stackW_cons n rest
      have h2 := nodeSize_pos n
      omega
  | succ w ih =>
    intro s hw
    cases s with
    | nil => rfl
    | cons n rest =>
      have hbound : stackW ((childrenDesc n).reverse ++ rest) ≤ w := by
        have h1 := stackW_push_lt n rest
        omega
      have hboundr : stackW rest ≤ w := by
        have h1 := stackW_tail_lt n rest
        omega
      rcases n with ⟨nd, ch, lv⟩
      cases nd with
      | none =>
        have hfn : flaggedN ⟨none, ch, lv⟩ = false := flaggedN_none rfl
        rw [pruneStack_cons_unflagged hfn, pruneFn_mk]
        simp only [walk]
        rw [show (⟨none, pruneForest ch, lv⟩ : TNode)
          = pruneFn ⟨none, ch, lv⟩ from (pruneFn_mk _ _ _).symm]
        rw [push_pruneFn, ← pruneStack_append]
        exact ih _ hbound
      | some b =>
        by_cases hfb : flaggedB b = true
        · have hfn : flaggedN ⟨some b, ch, lv⟩ = true := by
            simp [flaggedN, TNode.node, hfb]
          rw [pruneStack_cons_flagged hfn]
          simp only [walk, hfb]
          simp only [if_pos]
          exact ih rest hboundr
        · have hfb' : flaggedB b = false := by simpa using hfb
          have hfn : flaggedN ⟨some b, ch, lv⟩ = false := by
            simp [flaggedN, TNode.node, hfb']
          rw [pruneStack_cons_unflagged hfn, pruneFn_mk]
          simp only [walk, hfb']
          rw [show (⟨some b, pruneForest ch, lv⟩ : TNode)
            = pruneFn ⟨some b, ch, lv⟩ from (pruneFn_mk _ _ _).symm]
          rw [push_pruneFn, ← pruneStack_append]
          rw [ih _ hbound, menuF_pruneFn]
          simp

/-- C3: the rendering traversal emits nothing for a flagged block nor
for any of its descendants: the menu and main-content pair computed by
the renderer loop on any stack of trees equals the pair computed on the
stack with every private, ignored or deprecated subtree deleted. -/
theorem C3_hard_prune (ts : List TNode) :
    walk ts = walk (pruneStack ts) :=
  (walk_pruneStack_aux (stackW ts) ts le_rfl).symm

theorem mk_cons_eq (c : Char) (cs : List Char) :
    String.mk (c :: cs) = String.mk [c] ++ String.mk cs := by
  rw [String.ext_iff, append_data]
  rfl

theorem joinDot_prepend_char (c : Char) (s : List Char) (t : List String) :
    joinDot (String.mk (c :: s) :: t) = String.mk [c] ++ joinDot (String.mk s :: t) := by
  cases t with
  | nil =>
    show String.mk (c :: s) = String.mk [c] ++ String.mk s
    exact mk_cons_eq c s
  | cons x t' =>
    rw [joinDot_cons, joinDot_cons, mk_cons_eq]
    simp only [String.append_assoc]

/-- Re-joining the dot split gives back the original string. -/
theorem joinDot_splitDot (s : String) : joinDot (splitDot s) = s := by
  rcases s with ⟨l⟩
  show joinDot ((splitDotChars l).map String.mk) = String.mk l
  induction l with
  | nil => rfl
  | cons c cs ih =>
    cases h : splitDotChars cs with
    | nil => exact absurd h (splitDotChars_ne_nil cs)
    | cons p rest =>
      rw [h] at ih
      by_cases hc : c = '.'
      · subst hc
        rw [show splitDotChars ('.' :: cs) = [] :: p :: rest by
          simp [splitDotChars, h]]
        simp only [List.map_cons]
        rw [joinDot_cons, ← List.map_cons, ih, show String.mk [] = "" from rfl]
        rw [String.ext_iff, append_data, append_data]
        rfl
      · rw [show splitDotChars (c :: cs) = (c :: p) :: rest by
          simp [splitDotChars, h, hc]]
        simp only [List.map_cons]
        rw [joinDot_prepend_char, ← List.map_cons, ih, ← mk_cons_eq]

/-- Common parent with the empty path stays empty for a well-formed
other path. -/
theorem common_parent_empty_left (p : String) (hp : wfP p) :
    Path.common_parent ⟨""⟩ ⟨p⟩ = ⟨""⟩ := by
  rcases List.exists_cons_of_ne_nil (splitDot_ne_nil p) with ⟨h, t, hsegs⟩
  have hne : h ≠ "" := hp h (by rw [hsegs]; exact List.mem_cons_self _ _)
  rw [Path.common_parent]
  show commonLoop [""] (splitDot p) ⟨""⟩ = ⟨""⟩
  rw [hsegs]
  have hno : ¬ ("" = h) := fun hc => hne (Eq.symm hc)
  simp [commonLoop, hno]

/-- An invariant list of segments for the root fold: empty, or
nonempty with dot-free nonempty segments. -/
def goodSegs (A : List String) : Prop :=
  A = [] ∨ (A ≠ [] ∧ ∀ x ∈ A, '.' ∉ x.data ∧ x ≠ "")

theorem goodSegs_splitDot (p : String) (hp : wfP p) : goodSegs (splitDot p) :=
  Or.inr ⟨splitDot_ne_nil p,
    fun x hx => ⟨splitDot_no_dot p x hx, hp x hx⟩⟩

theorem goodSegs_lcp (A B : List String) (h : goodSegs A) : goodSegs (lcp A B) := by
  rcases h with h | ⟨hne, hall⟩
  · subst h
    left
    cases B <;> rfl
  · by_cases hnil : lcp A B = []
    · exact Or.inl hnil
    · exact Or.inr ⟨hnil,
        fun x hx => hall x ((lcp_prefix_left A B).subset hx)⟩

/-- The root fold at the segment level: fold the longest common prefix
of the accumulated segments with each block path split. -/
theorem root_fold_eq (rest : List Block) :
    ∀ A : List String, goodSegs A → (∀ b ∈ rest, wfP b.path) →
      List.foldl (fun (r : Path) (bl : Block) => r.common_parent ⟨bl.path⟩)
          ⟨joinDot A⟩ rest
        = ⟨joinDot (List.foldl (fun A bl => lcp A (splitDot bl.path)) A rest)⟩ := by
  induction rest with
  | nil => intro A _ _; rfl
  | cons b rest' ih =>
    intro A hA hwf
    have hwf' : ∀ b' ∈ rest', wfP b'.path :=
      fun b' hb' => hwf b' (List.mem_cons_of_mem _ hb')
    rcases hA with hA | ⟨hne, hall⟩
    · subst hA
      rw [List.foldl_cons, List.foldl_cons]
      rw [show joinDot [] = "" from rfl,
        common_parent_empty_left b.path (hwf b (List.mem_cons_self _ _))]
      rw [show lcp [] (splitDot b.path) = [] by cases splitDot b.path <;> rfl]
      exact ih [] (Or.inl rfl) hwf'
    · have hsegsA : splitDot (joinDot A) = A :=
        splitDot_joinDot A hne (fun x hx => (hall x hx).1)
      have hwfA : wfP (joinDot A) := by
        intro seg hseg
        rw [hsegsA] at hseg
        exact (hall seg hseg).2
      rw [List.foldl_cons, List.foldl_cons]
      rw [common_parent_eq ⟨joinDot A⟩ ⟨b.path⟩ hwfA]
      show List.foldl _ (⟨joinDot (lcp (splitDot (joinDot A)) (splitDot b.path))⟩ : Path) rest' = _
      rw [hsegsA]
      exact ih (lcp A (splitDot b.path))
        (goodSegs_lcp A (splitDot b.path) (Or.inr ⟨hne, hall⟩)) hwf'

theorem lcp_ne_nil_heads {A B : List String} (h : lcp A B ≠ []) :
    A.headI = B.headI ∧ (lcp A B).headI = A.headI := by
  cases A with
  | nil => simp [lcp] at h
  | cons a A' =>
    cases B with
    | nil => simp [lcp] at h
    | cons b B' =>
      by_cases hab : a = b
      · subst hab
        simp [lcp]
      · simp [lcp, hab] at h

/-- If the segment-level root fold is nonempty, every folded path
starts with the same first segment as the accumulator. -/
theorem root_fold_heads (rest : List Block) :
    ∀ A : List String,
      List.foldl (fun A bl => lcp A (splitDot bl.path)) A rest ≠ [] →
      A ≠ [] ∧ ∀ b ∈ rest, (splitDot b.path).headI = A.headI := by
  induction rest with
  | nil =>
    intro A h
    exact ⟨h, fun b hb => absurd hb (List.not_mem_nil b)⟩
  | cons b rest' ih =>
    intro A h
    rw [List.foldl_cons] at h
    rcases ih (lcp A (splitDot b.path)) h with ⟨hlcp, hrest⟩
    rcases lcp_ne_nil_heads hlcp with ⟨hheads, hheadlcp⟩
    refine ⟨?_, ?_⟩
    · intro hA; subst hA; simp [lcp] at hlcp
    · intro b' hb'
      rcases List.mem_cons.mp hb' with rfl | hb'
      · exact hheads.symm
      · rw [hrest b' hb', hheadlcp, hheads]

theorem key_present_addLeafGo (b : Block) (t : TNode) (segs : List String)
    (l : Nat) (k : String)
    (h : lookupC t.children k ≠ none ∨ (segs.headI = k ∧ segs ≠ [])) :
    lookupC (addLeafGo b t segs l).children k ≠ none := by
  rcases t with ⟨nd, ch, lv⟩
  cases segs with
  | nil =>
    rcases h with h | ⟨_, hne⟩
    · simpa [addLeafGo, TNode.children] using h
    · exact absurd rfl hne
  | cons s rest =>
    simp only [addLeafGo, TNode.children]
    by_cases hk : k = s
    · subst hk
      rw [lookupC_updateChild_self]
      simp
    · rw [lookupC_updateChild_ne _ _ _ _ hk]
      rcases h with h | ⟨hhead, _⟩
      · simpa [TNode.children] using h
      · simp only [List.headI] at hhead
        exact absurd hhead.symm hk

/-- Every first path segment of a folded block is a key of the built
children dictionary. -/
theorem buildTree_key_present :
    ∀ (blocks : List Block) (t : TNode) (k : String),
      (lookupC t.children k ≠ none ∨ ∃ b ∈ blocks, (splitDot b.path).headI = k) →
      lookupC (blocks.foldl (fun t b => (Path.mk b.path).add_leaf t b) t).children k
        ≠ none := by
  intro blocks
  induction blocks with
  | nil =>
    intro t k h
    rcases h with h | ⟨b, hb, _⟩
    · exact h
    · exact absurd hb (List.not_mem_nil b)
  | cons b rest ih =>
    intro t k h
    rw [List.foldl_cons]
    apply ih
    rcases h with h | ⟨b', hb', hhead⟩
    · left
      exact key_present_addLeafGo b t _ 0 k (Or.inl h)
    · rcases List.mem_cons.mp hb' with rfl | hb'
      · left
        exact key_present_addLeafGo b' t _ 0 k
          (Or.inr ⟨hhead, splitDot_ne_nil _⟩)
      · right
        exact ⟨b', hb', hhead⟩

/-- C8 amended: when the block paths share no common first segment, the
computed root is the empty path and every distinct first segment is a
top-level child of the built tree; the renderer however starts its
stack at the first key of the tree dictionary only, so the output is
built from that single top-level subtree, not from the whole forest. -/
theorem C8_forest_root (blocks : List Block) (hne : blocks ≠ [])
    (hwf : ∀ b ∈ blocks, wfP b.path)
    (hdiff : ∃ b1 ∈ blocks, ∃ b2 ∈ blocks,
      (splitDot b1.path).headI ≠ (splitDot b2.path).headI) :
    rootStr blocks = some ""
    ∧ (∀ b ∈ blocks, lookupC (buildTree blocks) ((splitDot b.path).headI) ≠ none)
    ∧ ∃ k t restT, buildTree blocks = (k, t) :: restT
        ∧ htmlParts blocks = Except.ok ("", (walk [t]).1, (walk [t]).2) := by
  cases blocks with
  | nil => exact absurd rfl hne
  | cons b0 rest =>
    have hwf0 : wfP b0.path := hwf b0 (List.mem_cons_self _ _)
    have hwfr : ∀ b ∈ rest, wfP b.path :=
      fun b hb => hwf b (List.mem_cons_of_mem _ hb)
    have hfold := root_fold_eq rest (splitDot b0.path)
      (goodSegs_splitDot b0.path hwf0) hwfr
    have hF : List.foldl (fun A bl => lcp A (splitDot bl.path))
        (splitDot b0.path) rest = [] := by
      by_contra hFne
      rcases root_fold_heads rest (splitDot b0.path) hFne with ⟨_, hheads⟩
      rcases hdiff with ⟨b1, hb1, b2, hb2, hneq⟩
      have hall : ∀ b ∈ b0 :: rest,
          (splitDot b.path).headI = (splitDot b0.path).headI := by
        intro b hb
        rcases List.mem_cons.mp hb with rfl | hb
        · rfl
        · exact hheads b hb
      exact hneq ((hall b1 hb1).trans (hall b2 hb2).symm)
    have hroot : rootStr (b0 :: rest) = some "" := by
      show some (List.foldl (fun (r : Path) (bl : Block) =>
        r.common_parent ⟨bl.path⟩) ⟨b0.path⟩ rest)._path = some ""
      rw [show (⟨b0.path⟩ : Path) = ⟨joinDot (splitDot b0.path)⟩ by
        rw [joinDot_splitDot]]
      rw [hfold, hF]
      rfl
    have hkeys : ∀ b ∈ b0 :: rest,
        lookupC (buildTree (b0 :: rest)) ((splitDot b.path).headI) ≠ none := by
      intro b hb
      exact buildTree_key_present (b0 :: rest) ⟨none, [], 0⟩ _
        (Or.inr ⟨b, hb, rfl⟩)
    refine ⟨hroot, hkeys, ?_⟩
    have hbt : buildTree (b0 :: rest) ≠ [] := by
      intro h0
      have := hkeys b0 (List.mem_cons_self _ _)
      rw [h0] at this
      exact this rfl
    rcases hx : buildTree (b0 :: rest) with _ | ⟨⟨k, t⟩, restT⟩
    · exact absurd hx hbt
    · refine ⟨k, t, restT, rfl, ?_⟩
      simp only [htmlParts, hx, hroot]

/-- Witness for C8 amended at two module blocks with first segments a
and b. -/
theorem C8_forest_root_witness :
    ([exBlockAt "a" "a" BType.module 1, exBlockAt "b" "b" BType.module 2] ≠ []
      ∧ (∀ b ∈ [exBlockAt "a" "a" BType.module 1, exBlockAt "b" "b" BType.module 2],
          wfP b.path)
      ∧ (∃ b1 ∈ [exBlockAt "a" "a" BType.module 1, exBlockAt "b" "b" BType.module 2],
          ∃ b2 ∈ [exBlockAt "a" "a" BType.module 1, exBlockAt "b" "b" BType.module 2],
          (splitDot b1.path).headI ≠ (splitDot b2.path).headI))
    ∧ rootStr [exBlockAt "a" "a" BType.module 1, exBlockAt "b" "b" BType.module 2]
        = some ""
    ∧ (∀ b ∈ [exBlockAt "a" "a" BType.module 1, exBlockAt "b" "b" BType.module 2],
        lookupC (buildTree [exBlockAt "a" "a" BType.module 1,
          exBlockAt "b" "b" BType.module 2]) ((splitDot b.path).headI) ≠ none)
    ∧ ∃ k t restT,
        buildTree [exBlockAt "a" "a" BType.module 1, exBlockAt "b" "b" BType.module 2]
          = (k, t) :: restT
        ∧ htmlParts [exBlockAt "a" "a" BType.module 1,
            exBlockAt "b" "b" BType.module 2]
          = Except.ok ("", (walk [t]).1, (walk [t]).2) :=
  ⟨⟨by decide, by decide, by decide⟩,
    C8_forest_root [exBlockAt "a" "a" BType.module 1, exBlockAt "b" "b" BType.module 2]
      (by decide) (by decide) (by decide)⟩

/-- C8 counterexample: with two top-level modules a and b, the menu and
main-content parts of the rendered output for both blocks coincide with
those for the single block a, although the module b renders nonempty
content on its own: the renderer silently drops every top-level segment
but the first, so not all of them appear in the output. -/
theorem C8_counterexample :
    ((htmlParts [exBlockAt "a" "a" BType.module 1,
        exBlockAt "b" "b" BType.module 2]).toOption.map (fun r => r.2))
      = ((htmlParts [exBlockAt "a" "a" BType.module 1]).toOption.map (fun r => r.2))
    ∧ (walk [⟨some (exBlockAt "b" "b" BType.module 2), [], 0⟩]).2 ≠ "" := by
  constructor
  · rfl
  · simp only [walk, childrenDesc, childNodes, TNode.children]
    simp [contentFor, exBlockAt]
    decide

end DocBuild
